import Mathlib

/-!
Verification of the schema-constrained decoding subsystem of the donut-receipt
repository: the tag grammar, the label encoder, the constrained scorer, the
detokenizer and the evaluator, shallowly embedded from
`src/domain/receipt.py`, `src/domain/inference_processor.py`,
`src/domain/dataset.py` and `src/domain/model.py`.
-/

/-- A receipt: an image reference plus the four free-text fields
(`src/domain/receipt.py`, class `Receipt`). -/
structure Receipt where
  image_path : String
  company : String
  date : String
  address : String
  total : String
deriving DecidableEq, Repr

/-- `Receipt.xml` (`receipt.py` lines 12-21): the canonical serialization,
built by literal concatenation exactly as the Python f-string does. -/
def Receipt.xml (r : Receipt) : String :=
  "<s>" ++ "<s_company>" ++ r.company ++ "</s_company>"
    ++ "<s_date>" ++ r.date ++ "</s_date>"
    ++ "<s_address>" ++ r.address ++ "</s_address>"
    ++ "<s_total>" ++ r.total ++ "</s_total>" ++ "</s>"

/-- `Receipt.get_xml_tags` (`receipt.py` lines 23-36).  The Python source
writes ten string literals, but the last two, `"</s_total>"` and `"</s>"`,
are not separated by a comma, so Python's implicit adjacent-literal
concatenation merges them into the single entry `"</s_total></s>"`: the list
the program actually builds has nine entries. -/
def Receipt.get_xml_tags : List String :=
  [ "<s>",
    "<s_company>",
    "</s_company>",
    "<s_date>",
    "</s_date>",
    "<s_address>",
    "</s_address>",
    "<s_total>",
    "</s_total></s>" ]

/-- The transition table of `InferenceLogitsProcessor._candidate_tags`
(`inference_processor.py` lines 27-38), embedded as the association list the
Python dict literal denotes. -/
def transition_table : List (String × List String) :=
  [ ("<s>", ["<s_company>"]),
    ("<s_company>", ["</s_company>"]),
    ("</s_company>", ["<s_date>"]),
    ("<s_date>", ["</s_date>"]),
    ("</s_date>", ["<s_address>"]),
    ("<s_address>", ["</s_address>"]),
    ("</s_address>", ["<s_total>"]),
    ("<s_total>", ["</s>"]) ]

/-- `InferenceLogitsProcessor._candidate_tags`: a Python dict lookup, which
raises `KeyError` on a missing key; the failure is modelled as `none`. -/
def candidate_tags (last_tag : String) : Option (List String) :=
  transition_table.lookup last_tag

example : candidate_tags "<s>" = some ["<s_company>"] := by decide
example : candidate_tags "</s_total>" = none := by decide
example : Receipt.get_xml_tags.length = 9 := by decide

/-- Model of the external tokenizer's id maps (`convert_tokens_to_ids` /
`convert_ids_to_tokens`), the collaborator used by
`InferenceLogitsProcessor.__init__` and `__call__`. -/
structure TokenizerModel where
  tokToId : String → ℕ
  idToTok : ℕ → String

/-- `self.special_token_ids` from `InferenceLogitsProcessor.__init__`
(lines 13-19): the ids of the registered grammar tags. -/
def special_token_ids (tk : TokenizerModel) : List ℕ :=
  Receipt.get_xml_tags.map tk.tokToId

/-- The tokenizer maps each registered tag string to an id that converts
back to the same string (true of the real tokenizer once the tags are added
as special tokens). -/
def TokenizerModel.RoundTrip (tk : TokenizerModel) : Prop :=
  ∀ t ∈ Receipt.get_xml_tags, tk.idToTok (tk.tokToId t) = t

/-- The in-place masking of one batch row in
`InferenceLogitsProcessor.__call__` (lines 47-54): every registered id whose
token text is not among the candidates has its score set to negative
infinity (`⊥`); scores are rationals extended with `⊥` for `-inf`. -/
def mask_row (tk : TokenizerModel) (candidates : List String)
    (scores : ℕ → WithBot ℚ) : ℕ → WithBot ℚ :=
  fun i =>
    if i ∈ special_token_ids tk ∧ tk.idToTok i ∉ candidates then ⊥ else scores i

/-- One row of `InferenceLogitsProcessor.__call__` (lines 40-56), given the
last structural tag found in the row: look up the candidate successors (a
dict access that raises `KeyError`, modelled by `none`) and mask the rest. -/
def process_row (tk : TokenizerModel) (last_tag : String)
    (scores : ℕ → WithBot ℚ) : Option (ℕ → WithBot ℚ) :=
  (candidate_tags last_tag).map fun cands => mask_row tk cands scores

/-- A concrete tokenizer assignment used to instantiate the theorems: each
registered tag gets a distinct id, the base-vocabulary end sentinel `</s>`
keeps its own id 2, and unregistered strings fall back to the unk id 3,
mirroring the real XLM-Roberta tokenizer after `add_special_tokens`. -/
def exTok : TokenizerModel where
  tokToId := fun t =>
    match t with
    | "<s>" => 0
    | "<s_company>" => 10
    | "</s_company>" => 11
    | "<s_date>" => 12
    | "</s_date>" => 13
    | "<s_address>" => 14
    | "</s_address>" => 15
    | "<s_total>" => 16
    | "</s_total></s>" => 17
    | "</s>" => 2
    | _ => 3
  idToTok := fun i =>
    match i with
    | 0 => "<s>"
    | 10 => "<s_company>"
    | 11 => "</s_company>"
    | 12 => "<s_date>"
    | 13 => "</s_date>"
    | 14 => "<s_address>"
    | 15 => "</s_address>"
    | 16 => "<s_total>"
    | 17 => "</s_total></s>"
    | 2 => "</s>"
    | _ => "<unk>"

example : exTok.RoundTrip := by unfold TokenizerModel.RoundTrip; decide
example : (process_row exTok "</s_company>" (fun _ => ((1 : ℚ) : WithBot ℚ))).map
    (fun f => f 2) = some ((1 : ℚ) : WithBot ℚ) := by decide
example : (process_row exTok "</s_company>" (fun _ => ((1 : ℚ) : WithBot ℚ))).map
    (fun f => f 11) = some ⊥ := by decide

/-- A lookup in an association list whose key is absent returns `none`
(models a Python dict raising `KeyError`). -/
theorem lookup_eq_none_of_not_mem_keys {β : Type} (t : String)
    (l : List (String × β)) (h : t ∉ l.map Prod.fst) : l.lookup t = none := by
  induction l with
  | nil => rfl
  | cons p l ih =>
    simp only [List.map_cons, List.mem_cons] at h
    push_neg at h
    have hne : (t == p.1) = false := by
      simp [h.1]
    simp [List.lookup, hne, ih h.2]

/-- A successful association-list lookup returns one of the stored values. -/
theorem lookup_mem_values {β : Type} (t : String) (l : List (String × β))
    (b : β) (h : l.lookup t = some b) : b ∈ l.map Prod.snd := by
  induction l with
  | nil => simp [List.lookup] at h
  | cons p l ih =>
    cases p with
    | mk k v =>
      simp only [List.lookup] at h
      by_cases hb : (t == k) = true
      · rw [hb] at h
        simp only [Option.some.injEq] at h
        simp [h.symm]
      · rw [Bool.not_eq_true] at hb
        rw [hb] at h
        simp only [List.map_cons, List.mem_cons]
        exact Or.inr (ih h)

/-- Every successor list stored in the transition table omits the merged
literal tag. -/
theorem merged_tag_not_mem_candidates (t : String) (cands : List String)
    (hc : candidate_tags t = some cands) : "</s_total></s>" ∉ cands := by
  have hmem := lookup_mem_values t transition_table cands hc
  fin_cases hmem <;> decide

/-- C2: the transition-table lookup maps each queried tag to exactly the
successor set of the spec (start to open(company), ..., open(total) to end),
and any tag with no entry in the table makes the lookup fail (the dict
access raises, modelled by `none`) rather than return a set. -/
theorem C2_legal_next_table :
    candidate_tags "<s>" = some ["<s_company>"]
    ∧ candidate_tags "<s_company>" = some ["</s_company>"]
    ∧ candidate_tags "</s_company>" = some ["<s_date>"]
    ∧ candidate_tags "<s_date>" = some ["</s_date>"]
    ∧ candidate_tags "</s_date>" = some ["<s_address>"]
    ∧ candidate_tags "<s_address>" = some ["</s_address>"]
    ∧ candidate_tags "</s_address>" = some ["<s_total>"]
    ∧ candidate_tags "<s_total>" = some ["</s>"]
    ∧ ∀ t : String, t ∉ transition_table.map Prod.fst → candidate_tags t = none := by
  refine ⟨by decide, by decide, by decide, by decide, by decide, by decide,
    by decide, by decide, ?_⟩
  intro t ht
  exact lookup_eq_none_of_not_mem_keys t transition_table ht

/-- Witness for C2: `</s_total>` is not a key of the table, and its lookup
fails. -/
theorem C2_legal_next_witness :
    "</s_total>" ∉ transition_table.map Prod.fst
    ∧ candidate_tags "</s_total>" = none :=
  ⟨by decide, C2_legal_next_table.2.2.2.2.2.2.2.2 "</s_total>" (by decide)⟩

/-- C3: the registered tag list actually built by `Receipt.get_xml_tags` has
nine entries, not ten: the two literals `"</s_total>"` and `"</s>"` lack a
separating comma in the source and are merged by Python's implicit
adjacent-string concatenation into the single entry `"</s_total></s>"`, so
neither `</s_total>` nor `</s>` is registered on its own. -/
theorem C3_tag_list_is_merged :
    Receipt.get_xml_tags.length = 9
    ∧ "</s_total></s>" ∈ Receipt.get_xml_tags
    ∧ "</s_total>" ∉ Receipt.get_xml_tags
    ∧ "</s>" ∉ Receipt.get_xml_tags
    ∧ Receipt.get_xml_tags.Nodup := by
  refine ⟨by decide, by decide, by decide, by decide, by decide⟩

/-- C1 (amended): for every last tag the table recognizes and every score
vector, the scorer masks to `⊥` exactly the registered tag ids whose token
text is not among the candidates; registered candidates and every id outside
the registered list — in particular the standalone end sentinel `</s>`,
which the merged tag list does not register — keep their scores unchanged. -/
theorem C1_scorer_masks_registered_tags (tk : TokenizerModel)
    (hrt : tk.RoundTrip) (last_tag : String) (cands : List String)
    (hc : candidate_tags last_tag = some cands) (scores : ℕ → WithBot ℚ) :
    process_row tk last_tag scores = some (mask_row tk cands scores)
    ∧ (∀ t ∈ Receipt.get_xml_tags, t ∉ cands →
        mask_row tk cands scores (tk.tokToId t) = ⊥)
    ∧ (∀ t ∈ Receipt.get_xml_tags, t ∈ cands →
        mask_row tk cands scores (tk.tokToId t) = scores (tk.tokToId t))
    ∧ (∀ i : ℕ, i ∉ special_token_ids tk → mask_row tk cands scores i = scores i) := by
  refine ⟨by simp [process_row, hc], ?_, ?_, ?_⟩
  · intro t htag hnc
    have hmem : tk.tokToId t ∈ special_token_ids tk := List.mem_map_of_mem _ htag
    have hid : tk.idToTok (tk.tokToId t) = t := hrt t htag
    show (if tk.tokToId t ∈ special_token_ids tk ∧ tk.idToTok (tk.tokToId t) ∉ cands
        then (⊥ : WithBot ℚ) else scores (tk.tokToId t)) = ⊥
    rw [hid]
    exact if_pos ⟨hmem, hnc⟩
  · intro t htag hcand
    have hid : tk.idToTok (tk.tokToId t) = t := hrt t htag
    show (if tk.tokToId t ∈ special_token_ids tk ∧ tk.idToTok (tk.tokToId t) ∉ cands
        then (⊥ : WithBot ℚ) else scores (tk.tokToId t)) = scores (tk.tokToId t)
    rw [hid]
    exact if_neg fun hcon => hcon.2 hcand
  · intro i hi
    exact if_neg fun hcon => hi hcon.1

/-- Witness for C1 (amended): with the concrete tokenizer, last tag
`</s_company>` has candidates `[<s_date>]`, and the registered id of `<s>`
is masked to `⊥`. -/
theorem C1_scorer_masks_witness :
    candidate_tags "</s_company>" = some ["<s_date>"]
    ∧ mask_row exTok ["<s_date>"] (fun _ => ((1 : ℚ) : WithBot ℚ))
        (exTok.tokToId "<s>") = ⊥ := by
  constructor
  · decide
  · exact (C1_scorer_masks_registered_tags exTok
      (by unfold TokenizerModel.RoundTrip; decide) "</s_company>" ["<s_date>"]
      (by decide) _).2.1 "<s>" (by decide) (by decide)

/-- Counterexample to C1 as stated: with last tag `</s_company>`, the id of
the end sentinel `</s>` (id 2 here, not registered since the tag list merges
`</s_total></s>`) is NOT masked — its score stays `1` instead of `⊥`. -/
theorem C1_end_sentinel_not_masked_counterexample :
    exTok.tokToId "</s>" = 2
    ∧ (process_row exTok "</s_company>" (fun _ => ((1 : ℚ) : WithBot ℚ))).map
        (fun f => f 2) = some ((1 : ℚ) : WithBot ℚ)
    ∧ ((1 : ℚ) : WithBot ℚ) ≠ (⊥ : WithBot ℚ) := by
  refine ⟨by decide, by decide, by decide⟩

/-- C10 (amended): the merged literal `</s_total></s>` is registered and
appears in no successor set, so its id is masked to `⊥` for every last tag
the scorer can process; the standalone `</s_total>` is not registered at
all, so the scorer never touches its id. -/
theorem C10_merged_tag_always_masked (tk : TokenizerModel) (hrt : tk.RoundTrip)
    (last_tag : String) (cands : List String)
    (hc : candidate_tags last_tag = some cands) (scores : ℕ → WithBot ℚ) :
    "</s_total>" ∉ Receipt.get_xml_tags
    ∧ process_row tk last_tag scores = some (mask_row tk cands scores)
    ∧ mask_row tk cands scores (tk.tokToId "</s_total></s>") = ⊥ := by
  refine ⟨by decide, by simp [process_row, hc], ?_⟩
  have htag : "</s_total></s>" ∈ Receipt.get_xml_tags := by decide
  have hmem : tk.tokToId "</s_total></s>" ∈ special_token_ids tk :=
    List.mem_map_of_mem _ htag
  have hid : tk.idToTok (tk.tokToId "</s_total></s>") = "</s_total></s>" :=
    hrt _ htag
  have hnc := merged_tag_not_mem_candidates last_tag cands hc
  show (if tk.tokToId "</s_total></s>" ∈ special_token_ids tk
        ∧ tk.idToTok (tk.tokToId "</s_total></s>") ∉ cands
      then (⊥ : WithBot ℚ) else scores (tk.tokToId "</s_total></s>")) = ⊥
  rw [hid]
  exact if_pos ⟨hmem, hnc⟩

/-- Witness for C10 (amended): with the concrete tokenizer and last tag
`<s>`, the merged tag's id is masked. -/
theorem C10_merged_tag_witness :
    mask_row exTok ["<s_company>"] (fun _ => ((1 : ℚ) : WithBot ℚ))
      (exTok.tokToId "</s_total></s>") = ⊥ :=
  (C10_merged_tag_always_masked exTok (by unfold TokenizerModel.RoundTrip; decide)
    "<s>" ["<s_company>"] (by decide) _).2.2

/-- Counterexample to C10 as stated: `</s_total>` has no registered id (it
falls back to the unk id 3), and with last tag `<s>` the scorer leaves that
id's score at `1` rather than setting it to `⊥`. -/
theorem C10_close_total_unmasked_counterexample :
    exTok.tokToId "</s_total>" = 3
    ∧ (process_row exTok "<s>" (fun _ => ((1 : ℚ) : WithBot ℚ))).map
        (fun f => f 3) = some ((1 : ℚ) : WithBot ℚ)
    ∧ ((1 : ℚ) : WithBot ℚ) ≠ (⊥ : WithBot ℚ) := by
  refine ⟨by decide, by decide, by decide⟩

/-- `String.append` concatenates the underlying character lists. -/
theorem string_data_append (a b : String) : (a ++ b).data = a.data ++ b.data := rfl

/-- C5: the canonical serialization places the four fields in the fixed
order company, date, address, total between the sentinels, for every field
content including empty strings; the ACME receipt of the spec's scenario 1
serializes to exactly the expected string. -/
theorem C5_canonical_serialization :
    (∀ r : Receipt, r.xml =
      "<s><s_company>" ++ r.company ++ "</s_company><s_date>" ++ r.date
        ++ "</s_date><s_address>" ++ r.address ++ "</s_address><s_total>"
        ++ r.total ++ "</s_total></s>")
    ∧ (Receipt.mk "img" "ACME" "2024-01-01" "" "10.00").xml
        = "<s><s_company>ACME</s_company><s_date>2024-01-01</s_date><s_address></s_address><s_total>10.00</s_total></s>" := by
  constructor
  · intro r
    apply String.ext
    simp only [Receipt.xml, string_data_append, List.append_assoc]
    rfl
  · decide

/-- The pad/truncate behavior of the external tokenizer call in
`Dataset._target_string_to_tensor` (`dataset.py` lines 89-107), invoked with
`max_length = L`, `padding="max_length"`, `truncation=True`: the token ids
of the tagged string are right-truncated to at most `L` and right-padded
with the padding id up to exactly `L`. -/
def pad_truncate (L : ℕ) (padId : ℕ) (ids : List ℕ) : List ℕ :=
  ids.take L ++ List.replicate (L - (ids.take L).length) padId

/-- `Dataset._target_string_to_tensor`: clone the padded ids and overwrite
every position holding the padding id with the ignore sentinel -100
(`labels[labels == pad_token_id] = ignore_id`). -/
def target_string_to_tensor (L : ℕ) (padId : ℕ) (ids : List ℕ) : List ℤ :=
  (pad_truncate L padId ids).map fun x => if x = padId then -100 else (x : ℤ)

/-- C4: the label encoder returns a sequence of length exactly `L`; each
position equal to the padding id maps to -100 and every other position
keeps its token id; a position can read -100 only if its source token is
the padding id; over-length inputs are right-truncated silently. -/
theorem C4_label_encoder (L : ℕ) (padId : ℕ) (ids : List ℕ) :
    (target_string_to_tensor L padId ids).length = L
    ∧ (∀ i : ℕ, (target_string_to_tensor L padId ids)[i]? =
        ((pad_truncate L padId ids)[i]?).map fun x =>
          if x = padId then -100 else (x : ℤ))
    ∧ (∀ i : ℕ, (target_string_to_tensor L padId ids)[i]? = some (-100) →
        (pad_truncate L padId ids)[i]? = some padId)
    ∧ (L ≤ ids.length → pad_truncate L padId ids = ids.take L) := by
  refine ⟨?_, ?_, ?_, ?_⟩
  · simp only [target_string_to_tensor, pad_truncate, List.length_map,
      List.length_append, List.length_take, List.length_replicate]
    omega
  · intro i
    simp [target_string_to_tensor, List.getElem?_map]
  · intro i h
    simp only [target_string_to_tensor, List.getElem?_map] at h
    cases hx : (pad_truncate L padId ids)[i]? with
    | none => rw [hx] at h; simp at h
    | some x =>
      rw [hx] at h
      simp only [Option.map_some', Option.some.injEq] at h
      by_cases hp : x = padId
      · rw [hp]
      · rw [if_neg hp] at h
        omega
  · intro hL
    have hlen : (ids.take L).length = L := by
      simp [List.length_take]
      omega
    simp [pad_truncate, hlen]

/-- Witness for C4: with `L = 2`, padding id 1 and tokens `[5, 1, 6]`, the
encoder truncates to `[5, 1]` and masks the padding position to -100. -/
theorem C4_label_encoder_witness :
    target_string_to_tensor 2 1 [5, 1, 6] = [5, -100]
    ∧ pad_truncate 2 1 [5, 1, 6] = [5, 1, 6].take 2 :=
  ⟨by decide, (C4_label_encoder 2 1 [5, 1, 6]).2.2.2 (by decide)⟩

/-- Unit-cost Levenshtein distance, the function computed by nltk's edit
distance with default arguments, as called in `Model.validation_step`
(model.py line 110).  Structural recursion on an explicit fuel counter; the
wrapper below always supplies adequate fuel, and the first two equations
make the base cases fuel-independent. -/
def editDistanceAux : ℕ → List Char → List Char → ℕ
  | _, [], ys => ys.length
  | _, x :: xs, [] => (x :: xs).length
  | 0, xs, ys => xs.length + ys.length
  | fuel + 1, x :: xs, y :: ys =>
      min (editDistanceAux fuel xs ys + (if x = y then 0 else 1))
        (min (editDistanceAux fuel xs (y :: ys) + 1)
          (editDistanceAux fuel (x :: xs) ys + 1))

/-- Character-level edit distance between two strings of characters. -/
def editDistance (xs ys : List Char) : ℕ :=
  editDistanceAux (xs.length + ys.length) xs ys

/-- The edit distance never exceeds the length of the longer string. -/
theorem editDistanceAux_le_max (fuel : ℕ) : ∀ xs ys : List Char,
    xs.length + ys.length ≤ fuel →
    editDistanceAux fuel xs ys ≤ max xs.length ys.length := by
  induction fuel with
  | zero =>
    intro xs ys h
    cases xs with
    | nil => simp [editDistanceAux]
    | cons x xs => simp at h
  | succ fuel ih =>
    intro xs ys h
    cases xs with
    | nil => simp [editDistanceAux]
    | cons x xs =>
      cases ys with
      | nil => simp [editDistanceAux]
      | cons y ys =>
        have h1 : xs.length + ys.length ≤ fuel := by
          simp only [List.length_cons] at h
          omega
        have h2 := ih xs ys h1
        have hcost : (if x = y then 0 else 1) ≤ 1 := by split <;> omega
        calc editDistanceAux (fuel + 1) (x :: xs) (y :: ys)
            ≤ editDistanceAux fuel xs ys + (if x = y then 0 else 1) :=
              min_le_left _ _
          _ ≤ max xs.length ys.length + 1 := by omega
          _ ≤ max (x :: xs).length (y :: ys).length := by
              simp only [List.length_cons]
              omega

/-- `editDistance` is bounded by the longer length. -/
theorem editDistance_le_max (xs ys : List Char) :
    editDistance xs ys ≤ max xs.length ys.length :=
  editDistanceAux_le_max _ xs ys le_rfl

/-- The per-example score of `Model.validation_step` (model.py lines
107-117): `edit_distance(pred, answer) / max(len(pred), len(answer))`.
When both strings are empty the Python division raises
`ZeroDivisionError`; the failure is modelled as `none`. -/
def validation_score (pred answer : List Char) : Option ℚ :=
  if max pred.length answer.length = 0 then none
  else some ((editDistance pred answer : ℚ) / (max pred.length answer.length : ℚ))

/-- C8 (amended): whenever at least one of the two strings is nonempty, the
evaluator returns the edit distance divided by the longer length, a value in
[0, 1]. -/
theorem C8_normalized_edit_distance (pred answer : List Char)
    (h : pred ≠ [] ∨ answer ≠ []) :
    validation_score pred answer
      = some ((editDistance pred answer : ℚ) / (max pred.length answer.length : ℚ))
    ∧ ∀ q : ℚ, validation_score pred answer = some q → 0 ≤ q ∧ q ≤ 1 := by
  have hmax : max pred.length answer.length ≠ 0 := by
    cases h with
    | inl h => cases pred with
      | nil => exact absurd rfl h
      | cons c cs => simp
    | inr h => cases answer with
      | nil => exact absurd rfl h
      | cons c cs => simp
  have heq : validation_score pred answer
      = some ((editDistance pred answer : ℚ) / (max pred.length answer.length : ℚ)) := by
    simp [validation_score, hmax]
  refine ⟨heq, ?_⟩
  intro q hq
  rw [heq] at hq
  have hq2 : q = (editDistance pred answer : ℚ) / (max pred.length answer.length : ℚ) := by
    exact (Option.some.injEq _ _).mp hq.symm
  have hpos : (0 : ℚ) < (max pred.length answer.length : ℚ) := by
    exact_mod_cast Nat.pos_of_ne_zero hmax
  constructor
  · rw [hq2]
    positivity
  · rw [hq2, div_le_one hpos]
    exact_mod_cast editDistance_le_max pred answer

/-- Witness for C8 (amended): prediction "a" against reference "ab" scores
1/2, inside [0, 1]. -/
theorem C8_normalized_edit_distance_witness :
    validation_score ['a'] ['a', 'b'] = some ((1 : ℚ) / 2)
    ∧ (0 : ℚ) ≤ 1 / 2 ∧ (1 : ℚ) / 2 ≤ 1 := by
  have hd : editDistance ['a'] ['a', 'b'] = 1 := by decide
  have heq : validation_score ['a'] ['a', 'b'] = some ((1 : ℚ) / 2) := by
    norm_num [validation_score, hd]
  have h := (C8_normalized_edit_distance ['a'] ['a', 'b'] (by simp)).2
    ((1 : ℚ) / 2) heq
  exact ⟨heq, h⟩

/-- Counterexample to C8 as stated: with both strings empty the code divides
by `max(0, 0) = 0` and raises `ZeroDivisionError` (modelled `none`) instead
of returning the claimed fallback 0.0. -/
theorem C8_empty_strings_counterexample :
    validation_score [] [] = none ∧ validation_score [] [] ≠ some 0 := by
  refine ⟨rfl, by decide⟩

/-- The whitespace class `\s` of a Python `re` pattern over `str`: the ASCII
whitespace and separator controls plus the Unicode whitespace characters
(NEL, NBSP, ogham space, en/em-family spaces U+2000-U+200A, line and
paragraph separators, narrow no-break space, medium mathematical space,
ideographic space) — codepoints U+0009-U+000D, U+001C-U+0020, U+0085,
U+00A0, U+1680, U+2000-U+200A, U+2028, U+2029, U+202F, U+205F, U+3000. -/
def isPySpace (c : Char) : Bool :=
  (9 ≤ c.toNat && c.toNat ≤ 13) || (28 ≤ c.toNat && c.toNat ≤ 32)
    || c.toNat == 133 || c.toNat == 160 || c.toNat == 5760
    || (8192 ≤ c.toNat && c.toNat ≤ 8202) || c.toNat == 8232
    || c.toNat == 8233 || c.toNat == 8239 || c.toNat == 8287
    || c.toNat == 12288

/-- The regex character class `[a-zA-Z0-9_]`. -/
def isTagChar (c : Char) : Bool :=
  c.isAlpha || c.isDigit || c = '_'

/-- The part of a match of `(<s_[a-zA-Z0-9_]+>)\s` after the literal `<s_`:
a maximal nonempty run of tag characters, a `>`, and one whitespace
character.  Returns the captured tag and the remainder after the consumed
whitespace. -/
def matchAfterOpen (rest : List Char) : Option (List Char × List Char) :=
  match rest.dropWhile isTagChar with
  | '>' :: c :: rest3 =>
      if 1 ≤ (rest.takeWhile isTagChar).length ∧ isPySpace c then
        some ('<' :: 's' :: '_' :: (rest.takeWhile isTagChar ++ ['>']), rest3)
      else none
  | _ => none

/-- One attempt to match the regex `(<s_[a-zA-Z0-9_]+>)\s` at the head of
the character list. -/
def matchTagWs : List Char → Option (List Char × List Char)
  | c1 :: c2 :: c3 :: rest =>
      if c1 = '<' ∧ c2 = 's' ∧ c3 = '_' then matchAfterOpen rest else none
  | _ => none

theorem matchAfterOpen_length (rest tag rest3 : List Char)
    (h : matchAfterOpen rest = some (tag, rest3)) :
    rest3.length + 3 ≤ rest.length := by
  unfold matchAfterOpen at h
  split at h
  next c cs heq =>
    split at h
    next hcond =>
      simp only [Option.some.injEq, Prod.mk.injEq] at h
      have hlen : (rest.takeWhile isTagChar).length
          + (rest.dropWhile isTagChar).length = rest.length := by
        rw [← List.length_append, List.takeWhile_append_dropWhile]
      rw [heq] at hlen
      simp only [List.length_cons] at hlen
      have h1 := hcond.1
      rw [← h.2]
      omega
    next => exact absurd h (by simp)
  next => exact absurd h (by simp)

/-- A successful regex match consumes at least six characters. -/
theorem matchTagWs_length (l tag rest : List Char)
    (h : matchTagWs l = some (tag, rest)) : rest.length + 6 ≤ l.length := by
  match l with
  | [] => exact absurd h (by simp [matchTagWs])
  | [a] => exact absurd h (by simp [matchTagWs])
  | [a, b] => exact absurd h (by simp [matchTagWs])
  | c1 :: c2 :: c3 :: r =>
    simp only [matchTagWs] at h
    split at h
    · have := matchAfterOpen_length r tag rest h
      simp only [List.length_cons]
      omega
    · exact absurd h (by simp)

/-- A match can only start at `<`. -/
theorem matchTagWs_ne_open (c : Char) (cs : List Char) (hc : ¬ c = '<') :
    matchTagWs (c :: cs) = none := by
  match cs with
  | [] => rfl
  | [a] => rfl
  | a :: b :: r => simp [matchTagWs, hc]

/-- `re.sub` with replacement `\1`, scanning left to right: on a match,
emit the captured tag and continue after the consumed whitespace; otherwise
emit one character and continue.  Structural recursion on a fuel counter;
one unit of fuel is spent per emitted chunk and every chunk consumes at
least one input character, so the wrapper's `l.length` is always enough. -/
def subTagWsAux : ℕ → List Char → List Char
  | _, [] => []
  | 0, l => l
  | fuel + 1, c :: cs =>
      match matchTagWs (c :: cs) with
      | some (tag, rest) => tag ++ subTagWsAux fuel rest
      | none => c :: subTagWsAux fuel cs

/-- `re.sub(r"(<s_[a-zA-Z0-9_]+>)\s", r"\1", ...)` over a character list. -/
def subTagWs (l : List Char) : List Char := subTagWsAux l.length l

/-- With adequate fuel the scan result does not depend on the exact fuel. -/
theorem subTagWsAux_fuel (fuel : ℕ) : ∀ (fuel2 : ℕ) (l : List Char),
    l.length ≤ fuel → l.length ≤ fuel2 →
    subTagWsAux fuel l = subTagWsAux fuel2 l := by
  induction fuel with
  | zero =>
    intro fuel2 l h1 h2
    have : l = [] := List.length_eq_zero.mp (Nat.le_zero.mp h1)
    subst this
    cases fuel2 <;> rfl
  | succ fuel ih =>
    intro fuel2 l h1 h2
    cases l with
    | nil => cases fuel2 <;> rfl
    | cons c cs =>
      cases fuel2 with
      | zero => simp at h2
      | succ fuel2 =>
        show (match matchTagWs (c :: cs) with
            | some (tag, rest) => tag ++ subTagWsAux fuel rest
            | none => c :: subTagWsAux fuel cs)
          = (match matchTagWs (c :: cs) with
            | some (tag, rest) => tag ++ subTagWsAux fuel2 rest
            | none => c :: subTagWsAux fuel2 cs)
        cases hm : matchTagWs (c :: cs) with
        | some pr =>
          obtain ⟨tag, rest⟩ := pr
          have hlen := matchTagWs_length _ _ _ hm
          simp only [List.length_cons] at hlen h1 h2
          show tag ++ subTagWsAux fuel rest = tag ++ subTagWsAux fuel2 rest
          rw [ih fuel2 rest (by omega) (by omega)]
        | none =>
          simp only [List.length_cons] at h1 h2
          show c :: subTagWsAux fuel cs = c :: subTagWsAux fuel2 cs
          rw [ih fuel2 cs (by omega) (by omega)]

/-- Unfolding `subTagWs` at a successful match. -/
theorem subTagWs_cons_match (c : Char) (cs tag rest : List Char)
    (hm : matchTagWs (c :: cs) = some (tag, rest)) :
    subTagWs (c :: cs) = tag ++ subTagWs rest := by
  have hlen := matchTagWs_length _ _ _ hm
  show subTagWsAux (c :: cs).length (c :: cs) = tag ++ subTagWsAux rest.length rest
  simp only [List.length_cons]
  show (match matchTagWs (c :: cs) with
      | some (tag, rest) => tag ++ subTagWsAux cs.length rest
      | none => c :: subTagWsAux cs.length cs)
    = tag ++ subTagWsAux rest.length rest
  rw [hm]
  show tag ++ subTagWsAux cs.length rest = tag ++ subTagWsAux rest.length rest
  simp only [List.length_cons] at hlen
  rw [subTagWsAux_fuel cs.length rest.length rest (by omega) (by omega)]

/-- Unfolding `subTagWs` at a failed match. -/
theorem subTagWs_cons_nomatch (c : Char) (cs : List Char)
    (hm : matchTagWs (c :: cs) = none) :
    subTagWs (c :: cs) = c :: subTagWs cs := by
  show subTagWsAux (c :: cs).length (c :: cs) = c :: subTagWsAux cs.length cs
  simp only [List.length_cons]
  show (match matchTagWs (c :: cs) with
      | some (tag, rest) => tag ++ subTagWsAux cs.length rest
      | none => c :: subTagWsAux cs.length cs)
    = c :: subTagWsAux cs.length cs
  rw [hm]

/-- Whether the regex matches anywhere in the list. -/
def hasTagWsMatch : List Char → Bool
  | [] => false
  | c :: cs => (matchTagWs (c :: cs)).isSome || hasTagWsMatch cs

/-- If the regex matches nowhere, the substitution returns its input. -/
theorem subTagWsAux_of_no_match (fuel : ℕ) : ∀ l : List Char,
    hasTagWsMatch l = false → subTagWsAux fuel l = l := by
  induction fuel with
  | zero => intro l h; cases l <;> rfl
  | succ fuel ih =>
    intro l h
    cases l with
    | nil => rfl
    | cons c cs =>
      simp only [hasTagWsMatch, Bool.or_eq_false_iff] at h
      have hm : matchTagWs (c :: cs) = none := by
        cases hmm : matchTagWs (c :: cs) with
        | none => rfl
        | some pr => rw [hmm] at h; simp at h
      show (match matchTagWs (c :: cs) with
          | some (tag, rest) => tag ++ subTagWsAux fuel rest
          | none => c :: subTagWsAux fuel cs) = c :: cs
      rw [hm]
      rw [ih cs h.2]

/-- Characters taken and dropped around a run of class characters followed
by a stopper. -/
theorem takeWhile_all_app (p : Char → Bool) (name : List Char)
    (h : ∀ ch ∈ name, p ch = true) (b : Char) (hb : p b = false)
    (rest : List Char) :
    (name ++ b :: rest).takeWhile p = name
    ∧ (name ++ b :: rest).dropWhile p = b :: rest := by
  induction name with
  | nil => simp [List.takeWhile, List.dropWhile, hb]
  | cons a as ih =>
    have ha : p a = true := h a (List.mem_cons_self a as)
    have has : ∀ ch ∈ as, p ch = true := fun ch hch => h ch (List.mem_cons_of_mem _ hch)
    have ih2 := ih has
    simp only [List.cons_append, List.takeWhile_cons, List.dropWhile_cons, ha]
    simp [ih2.1, ih2.2]

/-- The regex matches an open tag followed by a whitespace character,
capturing exactly the tag. -/
theorem matchTagWs_open_tag (name : List Char) (hne : name ≠ [])
    (hall : ∀ ch ∈ name, isTagChar ch = true) (c : Char) (hc : isPySpace c = true)
    (rest : List Char) :
    matchTagWs ('<' :: 's' :: '_' :: (name ++ '>' :: c :: rest))
      = some ('<' :: 's' :: '_' :: (name ++ ['>']), rest) := by
  have hgt : isTagChar '>' = false := by decide
  have htd := takeWhile_all_app isTagChar name hall '>' hgt (c :: rest)
  show (if ('<' : Char) = '<' ∧ ('s' : Char) = 's' ∧ ('_' : Char) = '_'
      then matchAfterOpen (name ++ '>' :: c :: rest) else none)
    = some ('<' :: 's' :: '_' :: (name ++ ['>']), rest)
  rw [if_pos ⟨rfl, rfl, rfl⟩]
  have hlen : 1 ≤ name.length := by
    cases name with
    | nil => exact absurd rfl hne
    | cons a as => simp
  unfold matchAfterOpen
  rw [htd.2, htd.1]
  split
  next c2 rest3 heq =>
    injection heq with h1 h2
    injection h2 with h3 h4
    subst h3
    subst h4
    rw [if_pos ⟨hlen, hc⟩]
  next hbad =>
    exact absurd rfl (hbad c rest)

/-- Whether `pat` is an initial segment of the list. -/
def leadsWith : List Char → List Char → Bool
  | [], _ => true
  | _ :: _, [] => false
  | p :: ps, c :: cs => p = c && leadsWith ps cs

/-- Whether `pat` occurs anywhere in the list. -/
def containsSub (pat : List Char) : List Char → Bool
  | [] => leadsWith pat []
  | c :: cs => leadsWith pat (c :: cs) || containsSub pat cs

/-- Python's `str.replace(pat, "")`: scan left to right; on an occurrence of
`pat`, skip it and continue after it; otherwise keep one character.  Fuel
recursion as above. -/
def replaceAllAux (pat : List Char) : ℕ → List Char → List Char
  | _, [] => []
  | 0, l => l
  | fuel + 1, c :: cs =>
      if pat ≠ [] ∧ leadsWith pat (c :: cs) = true then
        replaceAllAux pat fuel ((c :: cs).drop pat.length)
      else
        c :: replaceAllAux pat fuel cs

/-- `str.replace(pat, "")` over a character list. -/
def replaceAll (pat l : List Char) : List Char := replaceAllAux pat l.length l

theorem leadsWith_append (p x : List Char) : leadsWith p (p ++ x) = true := by
  induction p with
  | nil => rfl
  | cons a as ih => simp [leadsWith, ih]

/-- With adequate fuel the replacement does not depend on the exact fuel. -/
theorem replaceAllAux_fuel (pat : List Char) (fuel : ℕ) :
    ∀ (fuel2 : ℕ) (l : List Char), l.length ≤ fuel → l.length ≤ fuel2 →
    replaceAllAux pat fuel l = replaceAllAux pat fuel2 l := by
  induction fuel with
  | zero =>
    intro fuel2 l h1 h2
    have : l = [] := List.length_eq_zero.mp (Nat.le_zero.mp h1)
    subst this
    cases fuel2 <;> rfl
  | succ fuel ih =>
    intro fuel2 l h1 h2
    cases l with
    | nil => cases fuel2 <;> rfl
    | cons c cs =>
      cases fuel2 with
      | zero => simp at h2
      | succ fuel2 =>
        show (if pat ≠ [] ∧ leadsWith pat (c :: cs) = true then
              replaceAllAux pat fuel ((c :: cs).drop pat.length)
            else c :: replaceAllAux pat fuel cs)
          = (if pat ≠ [] ∧ leadsWith pat (c :: cs) = true then
              replaceAllAux pat fuel2 ((c :: cs).drop pat.length)
            else c :: replaceAllAux pat fuel2 cs)
        by_cases hcond : pat ≠ [] ∧ leadsWith pat (c :: cs) = true
        · rw [if_pos hcond, if_pos hcond]
          have hp : 1 ≤ pat.length := by
            cases hp : pat with
            | nil => exact absurd hp hcond.1
            | cons a as => simp
          have hd : ((c :: cs).drop pat.length).length = (c :: cs).length - pat.length :=
            List.length_drop _ _
          simp only [List.length_cons] at hd h1 h2
          rw [ih fuel2 _ (by omega) (by omega)]
        · rw [if_neg hcond, if_neg hcond]
          simp only [List.length_cons] at h1 h2
          rw [ih fuel2 cs (by omega) (by omega)]

/-- If `pat` occurs nowhere, the replacement returns its input. -/
theorem replaceAllAux_of_no_occurrence (pat : List Char) (fuel : ℕ) :
    ∀ l : List Char, containsSub pat l = false → replaceAllAux pat fuel l = l := by
  induction fuel with
  | zero => intro l h; cases l <;> rfl
  | succ fuel ih =>
    intro l h
    cases l with
    | nil => rfl
    | cons c cs =>
      simp only [containsSub, Bool.or_eq_false_iff] at h
      show (if pat ≠ [] ∧ leadsWith pat (c :: cs) = true then
            replaceAllAux pat fuel ((c :: cs).drop pat.length)
          else c :: replaceAllAux pat fuel cs) = c :: cs
      rw [if_neg (fun hcond => by rw [h.1] at hcond; exact Bool.false_ne_true hcond.2)]
      rw [ih cs h.2]

/-- Removing a leading occurrence of the pattern. -/
theorem replaceAll_leading_pat (pat l : List Char) (hne : pat ≠ []) :
    replaceAll pat (pat ++ l) = replaceAll pat l := by
  obtain ⟨p, ps, rfl⟩ : ∃ p ps, pat = p :: ps := by
    cases pat with
    | nil => exact absurd rfl hne
    | cons p ps => exact ⟨p, ps, rfl⟩
  show replaceAllAux (p :: ps) ((p :: ps) ++ l).length ((p :: ps) ++ l)
      = replaceAllAux (p :: ps) l.length l
  have hlen : ((p :: ps) ++ l).length = ps.length + l.length + 1 := by
    simp [List.length_append]
  rw [hlen]
  show (if (p :: ps) ≠ [] ∧ leadsWith (p :: ps) (p :: (ps ++ l)) = true then
        replaceAllAux (p :: ps) (ps.length + l.length)
          ((p :: (ps ++ l)).drop (p :: ps).length)
      else p :: replaceAllAux (p :: ps) (ps.length + l.length) (ps ++ l))
    = replaceAllAux (p :: ps) l.length l
  rw [if_pos ⟨List.cons_ne_nil p ps, leadsWith_append (p :: ps) l⟩]
  rw [show (p :: (ps ++ l)).drop (p :: ps).length = l from List.drop_left _ _]
  exact replaceAllAux_fuel (p :: ps) _ l.length l (by simp) le_rfl

/-- The literal text of the tokenizer's padding token. -/
def pad_token : List Char := "<pad>".data

/-- The detokenizer cleanup of `Model.inference` (model.py lines 147-158):
remove every occurrence of the pad token text
(`seq.replace(self.tokenizer.pad_token, "")`), then apply
`re.sub(r"(<s_[a-zA-Z0-9_]+>)\s", r"\1", seq_)`. -/
def canonicalize (l : List Char) : List Char :=
  subTagWs (replaceAll pad_token l)

/-- C6 (amended): canonicalizing an already-canonical string — one with no
occurrence of the pad literal and no open tag followed by a whitespace
character — returns it unchanged; full idempotence fails (see the
counterexample), since one pass removes only one whitespace character per
open tag. -/
theorem C6_canonicalize_fixed_point (l : List Char)
    (hpad : containsSub pad_token l = false)
    (hmatch : hasTagWsMatch l = false) :
    canonicalize l = l := by
  unfold canonicalize
  rw [show replaceAll pad_token l = l from replaceAllAux_of_no_occurrence _ _ l hpad]
  exact subTagWsAux_of_no_match _ l hmatch

/-- Witness for C6 (amended): a canonical prediction string is returned
unchanged. -/
theorem C6_canonicalize_fixed_point_witness :
    containsSub pad_token "<s_company>ACME</s_company>".data = false
    ∧ hasTagWsMatch "<s_company>ACME</s_company>".data = false
    ∧ canonicalize "<s_company>ACME</s_company>".data
        = "<s_company>ACME</s_company>".data :=
  ⟨by decide, by decide,
    C6_canonicalize_fixed_point _ (by decide) (by decide)⟩

/-- Counterexample to C6 as stated: two spaces after an open tag need two
passes — `canonicalize` is not idempotent. -/
theorem C6_not_idempotent_counterexample :
    canonicalize "<s_company>  A".data = "<s_company> A".data
    ∧ canonicalize (canonicalize "<s_company>  A".data) = "<s_company>A".data
    ∧ canonicalize (canonicalize "<s_company>  A".data)
        ≠ canonicalize "<s_company>  A".data := by
  refine ⟨by decide, by decide, by decide⟩

/-- C7 (amended): after pad removal the substitution removes exactly one
whitespace character immediately following an open tag `<s_...>`; a close
tag (starting `</`) never matches, so whitespace after it is kept; a leading
pad occurrence is removed by the replace pass. -/
theorem C7_detokenizer_spacing (name : List Char) (hne : name ≠ [])
    (hall : ∀ ch ∈ name, isTagChar ch = true) (c : Char)
    (hc : isPySpace c = true) (rest : List Char) (l : List Char) :
    subTagWs ('<' :: 's' :: '_' :: (name ++ '>' :: c :: rest))
      = '<' :: 's' :: '_' :: (name ++ '>' :: subTagWs rest)
    ∧ (∀ rest2 : List Char, subTagWs ('<' :: '/' :: rest2)
        = '<' :: '/' :: subTagWs rest2)
    ∧ canonicalize (pad_token ++ l) = canonicalize l := by
  refine ⟨?_, ?_, ?_⟩
  · have hm := matchTagWs_open_tag name hne hall c hc rest
    rw [subTagWs_cons_match _ _ _ _ hm]
    simp [List.append_assoc]
  · intro rest2
    have h1 : matchTagWs ('<' :: '/' :: rest2) = none := by
      match rest2 with
      | [] => rfl
      | a :: r2 => simp [matchTagWs]
    have h2 : matchTagWs ('/' :: rest2) = none :=
      matchTagWs_ne_open '/' rest2 (by decide)
    rw [subTagWs_cons_nomatch _ _ h1, subTagWs_cons_nomatch _ _ h2]
  · unfold canonicalize
    rw [replaceAll_leading_pat pad_token l (by decide)]

/-- Witness for C7 (amended): one space after `<s_company>` is removed while
the text after it is processed independently. -/
theorem C7_detokenizer_spacing_witness :
    subTagWs ('<' :: 's' :: '_' :: ("company".data ++ '>' :: ' ' :: "A".data))
      = '<' :: 's' :: '_' :: ("company".data ++ '>' :: subTagWs "A".data) :=
  (C7_detokenizer_spacing "company".data (by decide) (by decide) ' '
    (by decide) "A".data []).1

/-- Counterexample to C7 as stated: whitespace after a close tag is not
removed, and only one of several whitespace characters after an open tag is
removed. -/
theorem C7_close_tag_space_kept_counterexample :
    canonicalize "</s_company> x".data = "</s_company> x".data
    ∧ canonicalize "<s_total>  9".data = "<s_total> 9".data
    ∧ "<s_total> 9".data ≠ "<s_total>9".data := by
  refine ⟨by decide, by decide, by decide⟩

/-- The two logits processors installed by `Model.inference` (model.py lines
140-143): `LogitsProcessorList([InferenceLogitsProcessor(self.tokenizer),
RepetitionPenaltyLogitsProcessor(1.06)])`.  The HF generation loop applies
the list elements in order within each step. -/
inductive StepScorer
  | grammarMask
  | repetitionPenalty
deriving DecidableEq, Repr

/-- The processor list of `Model.inference`, in its source order. -/
def logits_processor_list : List StepScorer :=
  [StepScorer.grammarMask, StepScorer.repetitionPenalty]

/-- `RepetitionPenaltyLogitsProcessor(p)` (external collaborator): for every
token id already present in the row, a negative score is multiplied by `p`
and a non-negative one divided by `p`; negative infinity stays negative
infinity (`-inf * p = -inf`). -/
def repetition_penalty (p : ℚ) (inputIds : List ℕ)
    (scores : ℕ → WithBot ℚ) : ℕ → WithBot ℚ :=
  fun i =>
    if i ∈ inputIds then
      WithBot.map (fun q => if q < 0 then q * p else q / p) (scores i)
    else scores i

/-- One generation step's final scores in `Model.inference`: the grammar
mask runs first (first list element), the repetition penalty with `p = 1.06
= 53/50` second. -/
def step_scores (tk : TokenizerModel) (inputIds : List ℕ) (last_tag : String)
    (scores : ℕ → WithBot ℚ) : Option (ℕ → WithBot ℚ) :=
  (process_row tk last_tag scores).map (repetition_penalty (53 / 50) inputIds)

/-- C9 (amended): the grammar mask is the FIRST processor of the step, the
repetition penalty second; nevertheless every registered structural id whose
transition is illegal ends the step at negative infinity, because the
penalty maps `⊥` to `⊥` — an illegal structural token is never
selectable. -/
theorem C9_illegal_tokens_never_selectable (tk : TokenizerModel)
    (hrt : tk.RoundTrip) (inputIds : List ℕ) (last_tag : String)
    (cands : List String) (hc : candidate_tags last_tag = some cands)
    (scores : ℕ → WithBot ℚ) :
    logits_processor_list.head? = some StepScorer.grammarMask
    ∧ step_scores tk inputIds last_tag scores
        = some (repetition_penalty (53 / 50) inputIds (mask_row tk cands scores))
    ∧ ∀ t ∈ Receipt.get_xml_tags, t ∉ cands →
        repetition_penalty (53 / 50) inputIds (mask_row tk cands scores)
          (tk.tokToId t) = ⊥ := by
  refine ⟨rfl, by simp [step_scores, process_row, hc], ?_⟩
  intro t htag hnc
  have hmask : mask_row tk cands scores (tk.tokToId t) = ⊥ := by
    have hmem : tk.tokToId t ∈ special_token_ids tk := List.mem_map_of_mem _ htag
    have hid : tk.idToTok (tk.tokToId t) = t := hrt t htag
    show (if tk.tokToId t ∈ special_token_ids tk ∧ tk.idToTok (tk.tokToId t) ∉ cands
        then (⊥ : WithBot ℚ) else scores (tk.tokToId t)) = ⊥
    rw [hid]
    exact if_pos ⟨hmem, hnc⟩
  show (if tk.tokToId t ∈ inputIds then
      WithBot.map (fun q => if q < 0 then q * (53 / 50) else q / (53 / 50))
        (mask_row tk cands scores (tk.tokToId t))
    else mask_row tk cands scores (tk.tokToId t)) = ⊥
  rw [hmask]
  split
  · exact WithBot.map_bot _
  · rfl

/-- Witness for C9 (amended): concrete step in which the masked id of `<s>`
stays at `⊥` after the repetition penalty (its id 0 is in the row). -/
theorem C9_illegal_tokens_witness :
    repetition_penalty (53 / 50) [0] (mask_row exTok ["<s_date>"]
      (fun _ => ((1 : ℚ) : WithBot ℚ))) (exTok.tokToId "<s>") = ⊥ :=
  (C9_illegal_tokens_never_selectable exTok
    (by unfold TokenizerModel.RoundTrip; decide) [0] "</s_company>"
    ["<s_date>"] (by decide) _).2.2 "<s>" (by decide) (by decide)

/-- Counterexample to C9 as stated: the processor list applies the grammar
mask before, not after, the repetition penalty. -/
theorem C9_mask_not_applied_last_counterexample :
    logits_processor_list
      = [StepScorer.grammarMask, StepScorer.repetitionPenalty]
    ∧ logits_processor_list
      ≠ [StepScorer.repetitionPenalty, StepScorer.grammarMask] := by
  refine ⟨rfl, by decide⟩
